import Mathlib

/-!
Shallow embedding of `outlines/text/generate/sequence.py`.

The file embeds the two components of the source module:

* `vectorized_random_choice` — vectorized inverse-CDF categorical sampling
  (the "Sampler");
* the `Sequence` class — the batched autoregressive generation loop
  (`Sequence.step`, `Sequence.expand_attention_mask`, `Sequence.__call__`).

Modelling conventions:

* torch tensors of token ids are `List (List Int)` (rows × columns);
  probability tensors are `List (List ℚ)`; probabilities and uniform draws
  are rationals, so every definition is executable and decidable.
* The torch random generator is a pure stream `ℕ → ℚ` together with a
  position; `torch.rand` consumes draws from the stream in row-major
  order, exactly the order in which torch fills the requested shape.
* The external collaborators (model forward pass, tokenizer, `softmax`
  primitive, the `is_finished` hook that the base class leaves abstract)
  are fields of the `Model`/`Tokenizer`/`Sequence` structures; the loop
  logic itself is translated line by line.
* The Python `assert probs.shape[:-1] == token_ids.shape[:-1]` in
  `Sequence.step` is modelled by `Sequence.step` returning `Option`:
  `none` is the raised `AssertionError`.
* The `while True` loop of `Sequence.__call__` is fuel-indexed
  (`Sequence.genLoop`); `none` means the fuel ran out before the loop's
  own termination check fired (the Python loop is unbounded when
  `max_tokens` is `None`).
-/

/-- Token-id matrices: rows of integer token ids (`torch.LongTensor` of
shape `(rows, cols)`). -/
abbrev Mat := List (List Int)

/-- Probability/logit matrices (`torch.FloatTensor` of shape
`(rows, vocab)`), modelled over ℚ. -/
abbrev QMat := List (List ℚ)

/-- One tensor of the incremental model state: a list of rows (the batch
dimension) of opaque rational payloads. -/
abbrev CacheTensor := List (List ℚ)

/-- `past_key_values`: a tuple of tuples of tensors, each tensor indexed by
the batch dimension. The empty list models a falsy (empty) state. -/
abbrev KVCache := List (List CacheTensor)

/-- A `torch.Generator`: a pure stream of uniform draws together with the
current position in the stream. -/
structure RNG where
  stream : ℕ → ℚ
  pos : ℕ

/-- Boolean-mask row selection, `rows[mask]` in torch. -/
def maskFilter {α : Type} : List Bool → List α → List α
  | true :: ms, r :: rs => r :: maskFilter ms rs
  | false :: ms, _ :: rs => maskFilter ms rs
  | _, _ => []

/-- Boolean-mask scatter: `out = full(len(mask), pad); out[mask] = vals`.
Positions where the mask is `true` take the next value of `vals`;
positions where it is `false` keep the pad value. -/
def scatter {α : Type} : List Bool → List α → α → List α
  | [], _, _ => []
  | true :: ms, v :: vs, pad => v :: scatter ms vs pad
  | true :: ms, [], pad => pad :: scatter ms [] pad
  | false :: ms, vs, pad => pad :: scatter ms vs pad

/-- Boolean-mask assignment into a boolean vector:
`old[~old] = new` (used for `is_finished[is_not_finished] = local`).
Positions already `true` are kept; positions that are `false` take the
next value of `new`. -/
def maskAssign : List Bool → List Bool → List Bool
  | [], _ => []
  | true :: os, ns => true :: maskAssign os ns
  | false :: os, n :: ns => n :: maskAssign os ns
  | false :: os, [] => false :: maskAssign os []

/-- Prune every tensor of an incremental state along the batch dimension:
`tuple(tuple(vv[keep] for vv in v) for v in kv)`. -/
def pruneKV (keep : List Bool) (kv : KVCache) : KVCache :=
  kv.map (fun v => v.map (fun vv => maskFilter keep vv))

/-- Cumulative sum starting from an accumulator. -/
def cumsumFrom (acc : ℚ) : List ℚ → List ℚ
  | [] => []
  | x :: xs => (acc + x) :: cumsumFrom (acc + x) xs

/-- `torch.cumsum(p, axis=-1)` on one row. -/
def cumsum (xs : List ℚ) : List ℚ := cumsumFrom 0 xs

/-- `torch.rand` as used here: consume `n` draws from the generator's
stream, advancing its position. -/
def RNG.take (r : RNG) (n : ℕ) : List ℚ × RNG :=
  ((List.range n).map (fun i => r.stream (r.pos + i)), ⟨r.stream, r.pos + n⟩)

/-- `vectorized_random_choice(rng, p, samples)`.

`cumsum = p.cumsum(-1).unsqueeze(0)`; `rand` has shape
`(samples, k, 1)` and is filled from the generator in row-major order, so
entry `(s, i)` uses draw number `s * k + i`;
`idx = (cumsum < rand).sum(-1)` counts, for each draw, how many
cumulative-sum entries of the corresponding distribution lie strictly
below the draw. Returns the `(samples, k)` index matrix and the advanced
generator. -/
def vectorized_random_choice (rng : RNG) (p : List (List ℚ)) (samples : ℕ) :
    List (List ℕ) × RNG :=
  let k := p.length
  let idx := (List.range samples).map (fun s =>
    (List.range k).map (fun i =>
      (cumsum (p.getD i [])).countP (fun c => c < rng.stream (rng.pos + (s * k + i)))))
  (idx, ⟨rng.stream, rng.pos + samples * k⟩)

/-- The tokenizer collaborator, specified at its interface boundary:
`encode` returns a token-id matrix and a parallel attention mask (one row
per prompt), `decode` returns one string per row, and `pad_token_id` is a
stable padding token. -/
structure Tokenizer where
  encode : List String → Mat × Mat
  decode : Mat → List String
  pad_token_id : Int

/-- The model collaborator: `forward(token_ids, attention_mask, past)`
returns next-token scores (one row per input row) and an updated
incremental state. -/
structure Model where
  forward : Mat → Mat → Option KVCache → QMat × KVCache
  tokenizer : Tokenizer

/-- The `Sequence` class. `is_finished` is the abstract termination hook
supplied by subclasses; `create_proposal` defaults to the identity in the
base class; `postprocess_completions` defaults to the identity;
`softmaxFn` models the `torch.nn.functional.softmax(·, dim=-1)` primitive
applied to one row. -/
structure Sequence where
  model : Model
  max_tokens : Option ℕ
  is_finished : Mat → List Bool
  create_proposal : Mat → QMat → QMat
  postprocess_completions : List String → List String
  softmaxFn : List ℚ → List ℚ

/-- `self.pad_token_id = model.tokenizer.pad_token_id` (from `__init__`). -/
def Sequence.pad_token_id (self : Sequence) : Int :=
  self.model.tokenizer.pad_token_id

/-- The value returned by one `Sequence.step` call: sampled token ids of
shape `(samples, n_seqs)`, broadcast probabilities, the advanced
generator, and the model's new incremental state. -/
structure StepOut where
  next_token_ids : List (List ℕ)
  probs : List QMat
  rng : RNG
  past_key_values : KVCache

/-- `Sequence.step`: one forward pass plus sampling.

`probs, past = model.forward(token_ids, attention_mask, past)`;
`probs = create_proposal(token_ids[:, T:], probs)`;
`probs = softmax(probs, dim=-1)`;
`assert probs.shape[:-1] == token_ids.shape[:-1]` (modelled as the
`Option` guard);
`next = vectorized_random_choice(rng, probs, samples)`;
`probs = broadcast_to(probs, (samples,) + probs.shape)`. -/
def Sequence.step (self : Sequence) (rng : RNG) (num_prompt_tokens : ℕ)
    (token_ids attention_mask : Mat) (samples : ℕ)
    (past_key_values : Option KVCache) : Option StepOut :=
  let fwd := self.model.forward token_ids attention_mask past_key_values
  let probs := (self.create_proposal
      (token_ids.map (List.drop num_prompt_tokens)) fwd.1).map self.softmaxFn
  if probs.length = token_ids.length then
    let choice := vectorized_random_choice rng probs samples
    some ⟨choice.1, List.replicate samples probs, choice.2, fwd.2⟩
  else
    none

/-- `Sequence.expand_attention_mask`: append a column of 1s. -/
def Sequence.expand_attention_mask (_self : Sequence) (attention_mask : Mat) :
    Mat :=
  attention_mask.map (fun r => r ++ [1])

/-- The mutable state of one `Sequence.__call__` invocation at the top of
the `while` loop. -/
structure GenState where
  token_ids : Mat
  attention_mask : Mat
  is_finished : List Bool
  unfinished_past_key_values : Option KVCache
  rng : RNG

/-- `~is_finished`. -/
def GenState.isNotFinished (s : GenState) : List Bool :=
  s.is_finished.map (fun b => !b)

/-- One iteration of the `while` loop body of `Sequence.__call__`
(everything between the termination check and the end of the loop).
`none` propagates the assertion failure of `Sequence.step`. -/
def Sequence.genStep (self : Sequence) (num_prompt_tokens : ℕ)
    (s : GenState) : Option GenState :=
  let is_not_finished := s.is_finished.map (fun b => !b)
  let unfinished_token_ids := maskFilter is_not_finished s.token_ids
  let unfinished_attention_mask := maskFilter is_not_finished s.attention_mask
  match self.step s.rng num_prompt_tokens unfinished_token_ids
      unfinished_attention_mask 1 s.unfinished_past_key_values with
  | none => none
  | some o =>
    let unfinished_next_token_ids :=
      (o.next_token_ids.headD []).map (fun n => (n : Int))
    let next_token_ids :=
      scatter is_not_finished unfinished_next_token_ids self.pad_token_id
    let token_ids :=
      List.zipWith (fun r v => r ++ [v]) s.token_ids next_token_ids
    let attention_mask := self.expand_attention_mask s.attention_mask
    let local_is_finished := self.is_finished
      ((maskFilter is_not_finished token_ids).map (List.drop num_prompt_tokens))
    let is_finished := maskAssign s.is_finished local_is_finished
    let upkv :=
      if o.past_key_values.isEmpty then s.unfinished_past_key_values
      else some (pruneKV (local_is_finished.map (fun b => !b)) o.past_key_values)
    some ⟨token_ids, attention_mask, is_finished, upkv, o.rng⟩

/-- The loop's termination check, evaluated before generating a new token:
`torch.all(is_finished) or num_generated_tokens == self.max_tokens`
(`num_generated_tokens == None` is `False` in Python, hence the `Option`
comparison). -/
def Sequence.stopCond (self : Sequence) (num_prompt_tokens : ℕ)
    (s : GenState) : Bool :=
  s.is_finished.all (fun b => b) ||
    self.max_tokens == some ((s.token_ids.headD []).length - num_prompt_tokens)

/-- The `while True` loop of `Sequence.__call__`, fuel-indexed. The
termination check runs at the top of every iteration regardless of fuel;
`none` means the fuel was exhausted before the check fired. -/
def Sequence.genLoop (self : Sequence) (num_prompt_tokens : ℕ) :
    ℕ → GenState → Option GenState
  | 0, s => if self.stopCond num_prompt_tokens s then some s else none
  | fuel + 1, s =>
    if self.stopCond num_prompt_tokens s then some s
    else
      match self.genStep num_prompt_tokens s with
      | none => none
      | some s1 => self.genLoop num_prompt_tokens fuel s1

/-- The tail of `Sequence.__call__`: return `result[0]` when the list has
exactly one completion, the whole list otherwise. -/
def finalizeResult (l : List String) : String ⊕ List String :=
  if l.length = 1 then Sum.inl (l.headD "") else Sum.inr l

/-- `num_prompt_tokens = token_ids.shape[-1]` after encoding. -/
def Sequence.numPromptTokens (self : Sequence) (prompt : List String) : ℕ :=
  ((self.model.tokenizer.encode prompt).1.headD []).length

/-- The state at the top of the first loop iteration of
`Sequence.__call__`: the encoded prompts are broadcast to
`(samples,) + batch_shape` and flattened row-major to
`(samples * num_prompts, num_prompt_tokens)` (so the row at index
`s * num_prompts + p` holds prompt `p`); `is_finished` starts all false
and the incremental state absent. -/
def Sequence.initState (self : Sequence) (prompt : List String)
    (samples : ℕ) (rng : RNG) : GenState :=
  let enc := self.model.tokenizer.encode prompt
  let token_ids := (List.replicate samples enc.1).flatten
  let attention_mask := (List.replicate samples enc.2).flatten
  ⟨token_ids, attention_mask, List.replicate token_ids.length false,
    none, rng⟩

/-- `Sequence.__call__`: encode and broadcast the prompts, run the loop,
decode the generated suffix of every row, post-process, and collapse a
singleton result to a bare string. -/
def Sequence.call (self : Sequence) (prompt : List String) (samples : ℕ)
    (rng : RNG) (fuel : ℕ) : Option (String ⊕ List String) :=
  let num_prompt_tokens := self.numPromptTokens prompt
  match self.genLoop num_prompt_tokens fuel
      (self.initState prompt samples rng) with
  | none => none
  | some s =>
    some (finalizeResult (self.postprocess_completions
      (self.model.tokenizer.decode
        (s.token_ids.map (List.drop num_prompt_tokens)))))

/-- Specification-side view of the active slice: the row indices whose
`is_finished` flag is false — exactly the rows the boolean mask
`~is_finished` selects for the model call. -/
def activeIndices (s : GenState) : List ℕ :=
  (List.range s.is_finished.length).filter
    (fun j => s.is_finished.getD j true = false)

/-- Well-formedness of a loop state: `B` batch rows everywhere and a
rectangular `L`-column token matrix and attention mask. -/
structure WF (B L : ℕ) (s : GenState) : Prop where
  tok_len : s.token_ids.length = B
  mask_len : s.attention_mask.length = B
  fin_len : s.is_finished.length = B
  tok_rect : ∀ r ∈ s.token_ids, r.length = L
  mask_rect : ∀ r ∈ s.attention_mask, r.length = L

/-- The column scattered into the batch at one iteration: sampled tokens
at active rows, `pad_token_id` at finished rows (specification-side
abbreviation for the corresponding `genStep` internals). -/
def stepCol (self : Sequence) (s : GenState) (o : StepOut) : List Int :=
  scatter s.isNotFinished
    ((o.next_token_ids.headD []).map (fun n => (n : Int))) self.pad_token_id

/-- The token matrix after one iteration (specification-side abbreviation
for the corresponding `genStep` internals). -/
def newTokenIds (self : Sequence) (s : GenState) (o : StepOut) : Mat :=
  List.zipWith (fun r v => r ++ [v]) s.token_ids (stepCol self s o)

/-- The per-active-row finish flags computed at one iteration
(specification-side abbreviation for the corresponding `genStep`
internals). -/
def localFinished (self : Sequence) (T : ℕ) (s : GenState) (o : StepOut) :
    List Bool :=
  self.is_finished
    ((maskFilter s.isNotFinished (newTokenIds self s o)).map (List.drop T))

/-! ### Concrete instances used to exercise the definitions -/

/-- A concrete row decoder: a generated row decodes to "A" iff its first
token is 0. -/
def toyD (r : List Int) : String := if r.headD 0 = 0 then "A" else "B"

/-- A concrete tokenizer: the prompt "p0" encodes to the single token 10,
every other prompt to the single token 20; the pad token is 99. -/
def toyTokenizer : Tokenizer where
  encode := fun ps =>
    (ps.map (fun q => if q = "p0" then [10] else [20]), ps.map (fun _ => [1]))
  decode := fun rows => rows.map toyD
  pad_token_id := 99

/-- A concrete model: a row whose prompt token is 10 gets the proposal
distribution concentrated on token 0, every other row the one concentrated
on token 1; the returned incremental state is empty (falsy). -/
def toyModel : Model where
  forward := fun tok _ _ =>
    (tok.map (fun r => if r.headD 0 = 10 then [(1 : ℚ), 0] else [0, 1]), [])
  tokenizer := toyTokenizer

/-- The same model, but returning a one-tensor incremental state with
exactly one row per input row. -/
def toyModelKV : Model where
  forward := fun tok mask past =>
    ((toyModel.forward tok mask past).1, [[List.replicate tok.length [0]]])
  tokenizer := toyTokenizer

/-- A concrete `Sequence` over `toyModel`: `max_tokens = 1`, a termination
hook that finishes every row immediately, the base-class identity
`create_proposal` and `postprocess_completions`, and the identity in place
of `softmax` (the proposal rows are already probability vectors here). -/
def toySeq : Sequence where
  model := toyModel
  max_tokens := some 1
  is_finished := fun rows => rows.map (fun _ => true)
  create_proposal := fun _ l => l
  postprocess_completions := id
  softmaxFn := id

/-- `toySeq` over the state-returning model, with a larger budget and a
hook that never finishes a row. -/
def toySeqKV : Sequence where
  model := toyModelKV
  max_tokens := some 2
  is_finished := fun rows => rows.map (fun _ => false)
  create_proposal := fun _ l => l
  postprocess_completions := id
  softmaxFn := id

/-- `toySeq` with a zero token budget. -/
def toySeq0 : Sequence where
  model := toyModel
  max_tokens := some 0
  is_finished := fun rows => rows.map (fun _ => true)
  create_proposal := fun _ l => l
  postprocess_completions := id
  softmaxFn := id

/-- A concrete generator: the constant stream 1/2. -/
def toyRng : RNG := ⟨fun _ => 1/2, 0⟩

/-- A concrete mid-loop state with row 0 already finished. -/
def toyState : GenState :=
  ⟨[[10], [20]], [[1], [1]], [true, false], none, toyRng⟩

/-! ### Sampler lemmas -/

theorem cumsumFrom_length (acc : ℚ) (xs : List ℚ) :
    (cumsumFrom acc xs).length = xs.length := by
  induction xs generalizing acc with
  | nil => rfl
  | cons x xs ih => simp [cumsumFrom, ih]

theorem cumsum_length (xs : List ℚ) : (cumsum xs).length = xs.length :=
  cumsumFrom_length 0 xs

theorem add_sum_mem_cumsumFrom (acc : ℚ) (xs : List ℚ) (h : xs ≠ []) :
    acc + xs.sum ∈ cumsumFrom acc xs := by
  induction xs generalizing acc with
  | nil => exact absurd rfl h
  | cons x xs ih =>
    by_cases hxs : xs = []
    · subst hxs; simp [cumsumFrom]
    · rw [List.sum_cons, ← add_assoc]
      exact List.mem_cons_of_mem _ (ih (acc + x) hxs)

theorem sum_mem_cumsum (xs : List ℚ) (h : xs ≠ []) : xs.sum ∈ cumsum xs := by
  have := add_sum_mem_cumsumFrom 0 xs h
  rwa [zero_add] at this

theorem countP_lt_length_of_mem_not {α : Type} (p : α → Bool) (l : List α)
    (a : α) (ha : a ∈ l) (hpa : p a = false) :
    l.countP p < l.length := by
  rcases Nat.lt_or_ge (l.countP p) l.length with h | h
  · exact h
  · have heq : l.countP p = l.length :=
      Nat.le_antisymm (List.countP_le_length p) h
    have := List.countP_eq_length.mp heq a ha
    rw [hpa] at this
    cases this

theorem sampler_index_lt (row : List ℚ) (vocab : ℕ) (u : ℚ)
    (hlen : row.length = vocab) (hsum : row.sum = 1) (hu : u < 1) :
    (cumsum row).countP (fun c => decide (c < u)) < vocab := by
  have hne : row ≠ [] := by
    intro h
    rw [h] at hsum
    simp at hsum
  have hmem : (1 : ℚ) ∈ cumsum row := hsum ▸ sum_mem_cumsum row hne
  have hfail : (decide ((1 : ℚ) < u)) = false :=
    decide_eq_false_iff_not.mpr (not_lt.mpr hu.le)
  have := countP_lt_length_of_mem_not (fun c => decide (c < u))
    (cumsum row) 1 hmem hfail
  rwa [cumsum_length, hlen] at this

theorem getD_range_map {α : Type} (f : ℕ → α) (n i : ℕ) (h : i < n) (d : α) :
    ((List.range n).map f).getD i d = f i := by
  rw [List.getD_eq_getElem?_getD, List.getElem?_map, List.getElem?_range h]
  rfl

theorem cumsumFrom_replicate_zero (acc : ℚ) (n : ℕ) :
    cumsumFrom acc (List.replicate n 0) = List.replicate n acc := by
  induction n with
  | zero => rfl
  | succ n ih => simp [List.replicate_succ, cumsumFrom, ih]

theorem cumsum_unit_basis (j r : ℕ) :
    cumsum (List.replicate j 0 ++ 1 :: List.replicate r 0) =
      List.replicate j 0 ++ List.replicate (r + 1) 1 := by
  induction j with
  | zero =>
    simp only [List.replicate_zero, List.nil_append, cumsum, cumsumFrom,
      zero_add, List.replicate_succ]
    rw [cumsumFrom_replicate_zero]
  | succ j ih =>
    simp only [List.replicate_succ, List.cons_append]
    show cumsumFrom 0 _ = _
    simp only [cumsumFrom, add_zero]
    exact congrArg _ ih

/-- C2: for every probability matrix `p` whose rows are normalized
categorical distributions over `vocab` items (entries non-negative,
summing to 1) and every sample count `n ≥ 1`, the Sampler returns an index
matrix of shape `(n, p.length)` in which every entry lies in `[0, vocab)`
(entries are naturals, so only the upper bound is non-trivial), and the
entry at `(s, i)` equals the count of cumulative-sum entries of
distribution `i` that lie strictly below that entry's uniform draw, the
draws being taken from `[0, 1)`. -/
theorem claim_C2_sampler_spec (rng : RNG) (p : List (List ℚ))
    (vocab samples : ℕ) (hsamples : 1 ≤ samples)
    (hlen : ∀ row ∈ p, row.length = vocab)
    (hnonneg : ∀ row ∈ p, ∀ x ∈ row, 0 ≤ x)
    (hsum : ∀ row ∈ p, row.sum = 1)
    (hrand : ∀ n, 0 ≤ rng.stream n ∧ rng.stream n < 1) :
    (vectorized_random_choice rng p samples).1.length = samples ∧
    (∀ r ∈ (vectorized_random_choice rng p samples).1, r.length = p.length) ∧
    (∀ r ∈ (vectorized_random_choice rng p samples).1, ∀ e ∈ r, e < vocab) ∧
    (∀ s < samples, ∀ i < p.length,
      (((vectorized_random_choice rng p samples).1.getD s []).getD i 0 =
        (cumsum (p.getD i [])).countP
          (fun c => decide (c < rng.stream (rng.pos + (s * p.length + i)))))) := by
  refine ⟨by simp [vectorized_random_choice], ?_, ?_, ?_⟩
  · intro r hr
    simp only [vectorized_random_choice, List.mem_map] at hr
    obtain ⟨s, _, rfl⟩ := hr
    simp
  · intro r hr e he
    simp only [vectorized_random_choice, List.mem_map] at hr
    obtain ⟨s, _, rfl⟩ := hr
    simp only [List.mem_map, List.mem_range] at he
    obtain ⟨i, hi, rfl⟩ := he
    have hrow : p.getD i [] ∈ p := by
      rw [List.getD_eq_getElem p [] hi]
      exact List.getElem_mem hi
    exact sampler_index_lt (p.getD i []) vocab _ (hlen _ hrow) (hsum _ hrow)
      (hrand _).2
  · intro s hs i hi
    simp only [vectorized_random_choice]
    rw [getD_range_map _ samples s hs, getD_range_map _ p.length i hi]

/-- C2 witness: the sampler specification instantiated at the single
distribution `[1/2, 1/2]`, two samples, and the constant draw stream
1/2. -/
theorem claim_C2_sampler_spec_witness :
    (vectorized_random_choice ⟨fun _ => 1/2, 0⟩ [[1/2, 1/2]] 2).1.length = 2 ∧
    (∀ r ∈ (vectorized_random_choice ⟨fun _ => 1/2, 0⟩ [[1/2, 1/2]] 2).1,
      r.length = [[(1 : ℚ)/2, 1/2]].length) ∧
    (∀ r ∈ (vectorized_random_choice ⟨fun _ => 1/2, 0⟩ [[1/2, 1/2]] 2).1,
      ∀ e ∈ r, e < 2) ∧
    (∀ s < 2, ∀ i < [[(1 : ℚ)/2, 1/2]].length,
      (((vectorized_random_choice ⟨fun _ => 1/2, 0⟩ [[1/2, 1/2]] 2).1.getD s
          []).getD i 0 =
        (cumsum ([[(1 : ℚ)/2, 1/2]].getD i [])).countP
          (fun c => decide (c < (RNG.mk (fun _ => 1/2) 0).stream
            ((RNG.mk (fun _ => 1/2) 0).pos + (s * [[(1 : ℚ)/2, 1/2]].length + i)))))) :=
  claim_C2_sampler_spec ⟨fun _ => 1/2, 0⟩ [[1/2, 1/2]] 2 2 (by norm_num)
    (by intro row hrow; rw [List.mem_singleton] at hrow; subst hrow; rfl)
    (by
      intro row hrow x hx
      rw [List.mem_singleton] at hrow
      subst hrow
      fin_cases hx <;> norm_num)
    (by
      intro row hrow
      rw [List.mem_singleton] at hrow
      subst hrow
      norm_num)
    (by intro n; norm_num)

/-- C3 counterexample: the claim quantifies over every possible uniform
draw in `[0, 1)`, but at the draw 0 the Sampler returns index 0 even for
the one-row distribution concentrated on index 1 (`p = [0, 1]`): no
cumulative-sum entry is strictly below 0, so the counted index is 0 ≠ 1. -/
theorem claim_C3_counterexample :
    (vectorized_random_choice ⟨fun _ => 0, 0⟩ [[0, 1]] 1).1 = [[0]] ∧
      (0 : ℕ) ≠ 1 := by
  constructor
  · norm_num [vectorized_random_choice, cumsum, cumsumFrom, List.countP_cons,
      List.range_succ]
  · decide

/-- C3 (amended): for a one-row distribution that puts probability 1 on
index `j` and 0 elsewhere, every index returned by the Sampler equals `j`
for every sample count and every uniform draw in the open interval
`(0, 1)` (the claim's draw 0, possible in `[0, 1)`, is excluded: there it
returns 0). -/
theorem claim_C3_amended (rng : RNG) (j r samples : ℕ)
    (hrand : ∀ n, 0 < rng.stream n ∧ rng.stream n < 1) :
    ∀ row ∈ (vectorized_random_choice rng
        [List.replicate j 0 ++ 1 :: List.replicate r 0] samples).1,
      row = [j] := by
  intro row hrow
  simp only [vectorized_random_choice, List.mem_map, List.mem_range] at hrow
  obtain ⟨s, _, rfl⟩ := hrow
  have hr1 : List.range 1 = [0] := by simp [List.range_succ]
  simp only [List.length_singleton, hr1, List.map_cons, List.map_nil,
    List.getD_cons_zero]
  rw [cumsum_unit_basis, List.countP_append, List.countP_replicate,
    List.countP_replicate]
  have h0 : (0 : ℚ) < rng.stream (rng.pos + s) := (hrand _).1
  have h1 : ¬ ((1 : ℚ) < rng.stream (rng.pos + s)) :=
    not_lt.mpr (hrand _).2.le
  simp [h0, h1]

/-- C3 witness (for the amended claim): distribution `[0, 1]`
(concentrated on index 1), two samples, constant draw stream 1/2 — both
returned rows are `[1]`. -/
theorem claim_C3_amended_witness :
    (vectorized_random_choice ⟨fun _ => 1/2, 0⟩
      [List.replicate 1 0 ++ 1 :: List.replicate 0 0] 2).1.getD 0 [] =
      [1] ∧
    (vectorized_random_choice ⟨fun _ => 1/2, 0⟩
      [List.replicate 1 0 ++ 1 :: List.replicate 0 0] 2).1.getD 1 [] =
      [1] := by
  have h := claim_C3_amended ⟨fun _ => 1/2, 0⟩ 1 0 2
    (fun n => ⟨by norm_num, by norm_num⟩)
  exact ⟨h _ (by simp [vectorized_random_choice, List.range_succ]),
         h _ (by simp [vectorized_random_choice, List.range_succ])⟩

/-- C9 counterexample: the Sampler performs no normalization check. At
the malformed one-item distribution `[1/2]` (sum 1/2 ≠ 1) and draw 3/4 it
does not fail: it returns the index matrix `[[1]]` — an index tensor whose
entry even lies outside `[0, vocab) = [0, 1)`. Every operation in
`vectorized_random_choice` is total, so a malformed distribution can never
raise. -/
theorem claim_C9_counterexample :
    (vectorized_random_choice ⟨fun _ => 3/4, 0⟩ [[1/2]] 1).1 = [[1]] ∧
      ¬ ([(1 : ℚ)/2].sum = 1) := by
  constructor
  · norm_num [vectorized_random_choice, cumsum, cumsumFrom, List.countP_cons,
      List.range_succ]
  · norm_num

/-- C9 (amended): a malformed (non-normalized) distribution passed to the
Sampler is not rejected: with no normalization precondition at all, the
call still returns an index matrix of shape `(samples, p.length)` (whose
entries may then lie outside `[0, vocab)`, as the counterexample shows),
rather than raising an error. -/
theorem claim_C9_amended (rng : RNG) (p : List (List ℚ)) (samples : ℕ) :
    (vectorized_random_choice rng p samples).1.length = samples ∧
    ∀ r ∈ (vectorized_random_choice rng p samples).1, r.length = p.length := by
  refine ⟨by simp [vectorized_random_choice], ?_⟩
  intro r hr
  simp only [vectorized_random_choice, List.mem_map] at hr
  obtain ⟨s, _, rfl⟩ := hr
  simp

/-! ### Mask, scatter and assignment lemmas -/

theorem maskFilter_length {α : Type} (mask : List Bool) (rows : List α)
    (h : mask.length = rows.length) :
    (maskFilter mask rows).length = mask.count true := by
  induction mask generalizing rows with
  | nil => simp [maskFilter]
  | cons b ms ih =>
    cases rows with
    | nil => simp at h
    | cons r rs =>
      have h' : ms.length = rs.length := by simpa using h
      cases b
      · simpa [maskFilter, List.count_cons] using ih rs h'
      · simpa [maskFilter, List.count_cons] using ih rs h'

theorem scatter_length {α : Type} (mask : List Bool) (vals : List α)
    (pad : α) : (scatter mask vals pad).length = mask.length := by
  induction mask generalizing vals with
  | nil => rfl
  | cons b ms ih => cases b <;> cases vals <;> simp [scatter, ih]

theorem scatter_getElem?_false {α : Type} (mask : List Bool) (vals : List α)
    (pad : α) (i : ℕ) (h : mask[i]? = some false) :
    (scatter mask vals pad)[i]? = some pad := by
  induction mask generalizing vals i with
  | nil => simp at h
  | cons b ms ih =>
    cases i with
    | zero =>
      simp only [List.getElem?_cons_zero, Option.some.injEq] at h
      subst h
      cases vals <;> simp [scatter]
    | succ i =>
      simp only [List.getElem?_cons_succ] at h
      cases b <;> cases vals <;> simp [scatter, ih _ _ h]

theorem maskAssign_length (old new : List Bool) :
    (maskAssign old new).length = old.length := by
  induction old generalizing new with
  | nil => rfl
  | cons b os ih => cases b <;> cases new <;> simp [maskAssign, ih]

theorem maskAssign_getElem?_true (old new : List Bool) (i : ℕ)
    (h : old[i]? = some true) : (maskAssign old new)[i]? = some true := by
  induction old generalizing new i with
  | nil => simp at h
  | cons b os ih =>
    cases i with
    | zero =>
      simp only [List.getElem?_cons_zero, Option.some.injEq] at h
      subst h
      cases new <;> simp [maskAssign]
    | succ i =>
      simp only [List.getElem?_cons_succ] at h
      cases b <;> cases new <;> simp [maskAssign, ih _ _ h]

theorem maskAssign_count_false (old new : List Bool)
    (h : new.length = old.count false) :
    (maskAssign old new).count false = new.count false := by
  induction old generalizing new with
  | nil =>
    have : new = [] := List.eq_nil_of_length_eq_zero (by simpa using h)
    subst this
    rfl
  | cons b os ih =>
    cases b
    · cases new with
      | nil => simp [List.count_cons] at h
      | cons n ns =>
        have h' : ns.length = os.count false := by
          simpa [List.count_cons] using h
        simp [maskAssign, List.count_cons, ih ns h']
    · have h' : new.length = os.count false := by
        simpa [List.count_cons] using h
      simp [maskAssign, List.count_cons, ih new h']

theorem count_true_map_not (l : List Bool) :
    (l.map (fun b => !b)).count true = l.count false := by
  induction l with
  | nil => rfl
  | cons b bs ih => cases b <;> simp [List.count_cons, ih]

theorem isNotFinished_eq (s : GenState) :
    s.isNotFinished = s.is_finished.map (fun b => !b) := rfl

theorem isNotFinished_length (s : GenState) :
    s.isNotFinished.length = s.is_finished.length := by
  simp [GenState.isNotFinished]

theorem isNotFinished_getElem?_of_finished (s : GenState) (i : ℕ)
    (h : s.is_finished[i]? = some true) :
    s.isNotFinished[i]? = some false := by
  simp [GenState.isNotFinished, List.getElem?_map, h]

theorem zipWith_append_getElem? (rows : Mat) (col : List Int) (i : ℕ)
    (r : List Int) (v : Int) (hr : rows[i]? = some r) (hv : col[i]? = some v) :
    (List.zipWith (fun r w => r ++ [w]) rows col)[i]? = some (r ++ [v]) := by
  rw [List.getElem?_zipWith, hr, hv]

theorem mem_zipWith_append (rows : Mat) (col : List Int) :
    ∀ x ∈ List.zipWith (fun r w => r ++ [w]) rows col,
      ∃ r ∈ rows, ∃ v, x = r ++ [v] := by
  induction rows generalizing col with
  | nil => simp
  | cons r rs ih =>
    cases col with
    | nil => simp
    | cons v vs =>
      intro x hx
      simp only [List.zipWith_cons_cons, List.mem_cons] at hx
      rcases hx with hx | hx
      · exact ⟨r, List.mem_cons_self r rs, v, by simpa using hx⟩
      · obtain ⟨r', hr', v', hx'⟩ := ih vs x hx
        exact ⟨r', List.mem_cons_of_mem _ hr', v', hx'⟩

theorem flatten_replicate_length {α : Type} (n : ℕ) (l : List α) :
    ((List.replicate n l).flatten).length = n * l.length := by
  induction n with
  | zero => simp
  | succ n ih =>
    simp [List.replicate_succ, ih, Nat.succ_mul, Nat.add_comm]

theorem mem_flatten_replicate {α : Type} (n : ℕ) (l : List α) :
    ∀ x ∈ (List.replicate n l).flatten, x ∈ l := by
  intro x hx
  rw [List.mem_flatten] at hx
  obtain ⟨m, hm, hxm⟩ := hx
  rwa [List.eq_of_mem_replicate hm] at hxm

theorem flatten_replicate_getElem? {α : Type} (n : ℕ) (l : List α)
    (s i : ℕ) (hs : s < n) (hi : i < l.length) :
    ((List.replicate n l).flatten)[s * l.length + i]? = l[i]? := by
  induction n generalizing s with
  | zero => cases hs
  | succ n ih =>
    rw [List.replicate_succ, List.flatten_cons]
    cases s with
    | zero =>
      simp only [Nat.zero_mul, Nat.zero_add]
      rw [List.getElem?_append_left hi]
    | succ s =>
      have harith : (s + 1) * l.length + i = l.length + (s * l.length + i) := by
        ring
      rw [harith, List.getElem?_append_right (Nat.le_add_right _ _),
        Nat.add_sub_cancel_left]
      exact ih s (Nat.lt_of_succ_lt_succ hs)

/-! ### Characterizations of one loop iteration -/

theorem Sequence.step_some {self : Sequence} {rng : RNG} {T : ℕ}
    {tok mask : Mat} {samples : ℕ} {past : Option KVCache} {o : StepOut}
    (h : self.step rng T tok mask samples past = some o) :
    ((self.create_proposal (tok.map (List.drop T))
        (self.model.forward tok mask past).1).map self.softmaxFn).length =
      tok.length ∧
    o = ⟨(vectorized_random_choice rng ((self.create_proposal
            (tok.map (List.drop T))
            (self.model.forward tok mask past).1).map self.softmaxFn)
          samples).1,
         List.replicate samples ((self.create_proposal
            (tok.map (List.drop T))
            (self.model.forward tok mask past).1).map self.softmaxFn),
         (vectorized_random_choice rng ((self.create_proposal
            (tok.map (List.drop T))
            (self.model.forward tok mask past).1).map self.softmaxFn)
          samples).2,
         (self.model.forward tok mask past).2⟩ := by
  simp only [Sequence.step] at h
  split at h
  · rename_i hguard
    refine ⟨hguard, ?_⟩
    injection h with h
    exact h.symm
  · cases h

theorem Sequence.genStep_some {self : Sequence} {T : ℕ} {s s' : GenState}
    (h : self.genStep T s = some s') :
    ∃ o : StepOut,
      self.step s.rng T (maskFilter s.isNotFinished s.token_ids)
          (maskFilter s.isNotFinished s.attention_mask) 1
          s.unfinished_past_key_values = some o ∧
      s'.token_ids = newTokenIds self s o ∧
      s'.attention_mask = s.attention_mask.map (fun r => r ++ [1]) ∧
      s'.is_finished = maskAssign s.is_finished (localFinished self T s o) ∧
      s'.rng = o.rng ∧
      s'.unfinished_past_key_values =
        (if o.past_key_values.isEmpty then s.unfinished_past_key_values
         else some (pruneKV ((localFinished self T s o).map (fun b => !b))
           o.past_key_values)) := by
  simp only [Sequence.genStep] at h
  cases ho : self.step s.rng T
      (maskFilter (s.is_finished.map (fun b => !b)) s.token_ids)
      (maskFilter (s.is_finished.map (fun b => !b)) s.attention_mask) 1
      s.unfinished_past_key_values with
  | none => rw [ho] at h; cases h
  | some o =>
    rw [ho] at h
    injection h with h
    subst h
    exact ⟨o, ho, rfl, rfl, rfl, rfl, rfl⟩

theorem stepCol_length (self : Sequence) (s : GenState) (o : StepOut) :
    (stepCol self s o).length = s.is_finished.length := by
  unfold stepCol
  rw [scatter_length, isNotFinished_length]

theorem genStep_WF {self : Sequence} {T B L : ℕ} {s s' : GenState}
    (hWF : WF B L s) (h : self.genStep T s = some s') : WF B (L + 1) s' := by
  obtain ⟨o, _, htok, hmask, hfin, _, _⟩ := Sequence.genStep_some h
  constructor
  · rw [htok]
    unfold newTokenIds
    rw [List.length_zipWith, stepCol_length, hWF.tok_len, hWF.fin_len,
      Nat.min_self]
  · rw [hmask, List.length_map, hWF.mask_len]
  · rw [hfin, maskAssign_length, hWF.fin_len]
  · intro r hr
    rw [htok] at hr
    obtain ⟨r0, hr0, v, rfl⟩ := mem_zipWith_append _ _ r hr
    rw [List.length_append, hWF.tok_rect r0 hr0]
    rfl
  · intro r hr
    rw [hmask] at hr
    obtain ⟨r0, hr0, rfl⟩ := List.mem_map.mp hr
    rw [List.length_append, hWF.mask_rect r0 hr0]
    rfl

theorem genStep_finished_row {self : Sequence} {T : ℕ} {s s' : GenState}
    {i : ℕ} (hlen : s.token_ids.length = s.is_finished.length)
    (h : self.genStep T s = some s')
    (hfin : s.is_finished[i]? = some true) :
    s'.is_finished[i]? = some true ∧
    s'.token_ids[i]? =
      (s.token_ids[i]?).map (fun r => r ++ [self.pad_token_id]) := by
  obtain ⟨o, _, htok, _, hfin', _, _⟩ := Sequence.genStep_some h
  have hi : i < s.is_finished.length := by
    by_contra hge
    rw [List.getElem?_eq_none (Nat.le_of_not_lt hge)] at hfin
    cases hfin
  refine ⟨by rw [hfin']; exact maskAssign_getElem?_true _ _ _ hfin, ?_⟩
  have hmaski : s.isNotFinished[i]? = some false :=
    isNotFinished_getElem?_of_finished s i hfin
  have hcol : (stepCol self s o)[i]? = some self.pad_token_id :=
    scatter_getElem?_false _ _ _ i hmaski
  have hir : i < s.token_ids.length := by rwa [hlen]
  obtain ⟨r, hr⟩ : ∃ r, s.token_ids[i]? = some r :=
    ⟨s.token_ids[i], List.getElem?_eq_getElem hir⟩
  rw [htok]
  unfold newTokenIds
  rw [zipWith_append_getElem? _ _ i r self.pad_token_id hr hcol, hr]
  rfl

theorem genStep_row_append {self : Sequence} {T : ℕ} {s s' : GenState}
    {i : ℕ} {r : List Int} (hlen : s.token_ids.length = s.is_finished.length)
    (h : self.genStep T s = some s') (hr : s.token_ids[i]? = some r) :
    ∃ v, s'.token_ids[i]? = some (r ++ [v]) := by
  obtain ⟨o, _, htok, _, _, _, _⟩ := Sequence.genStep_some h
  have hi : i < s.token_ids.length := by
    by_contra hge
    rw [List.getElem?_eq_none (Nat.le_of_not_lt hge)] at hr
    cases hr
  have hic : i < (stepCol self s o).length := by
    rw [stepCol_length, ← hlen]
    exact hi
  obtain ⟨v, hv⟩ : ∃ v, (stepCol self s o)[i]? = some v :=
    ⟨(stepCol self s o)[i], List.getElem?_eq_getElem hic⟩
  refine ⟨v, ?_⟩
  rw [htok]
  unfold newTokenIds
  rw [zipWith_append_getElem? _ _ i r v hr hv]

/-! ### Loop invariants -/

theorem genLoop_WF {self : Sequence} {T fuel : ℕ} {s s' : GenState}
    {B L : ℕ} (hWF : WF B L s) (h : self.genLoop T fuel s = some s') :
    ∃ L', L ≤ L' ∧ WF B L' s' := by
  induction fuel generalizing s L with
  | zero =>
    simp only [Sequence.genLoop] at h
    split at h
    · injection h with h
      subst h
      exact ⟨L, Nat.le_refl L, hWF⟩
    · cases h
  | succ fuel ih =>
    simp only [Sequence.genLoop] at h
    split at h
    · injection h with h
      subst h
      exact ⟨L, Nat.le_refl L, hWF⟩
    · cases hstep : self.genStep T s with
      | none => rw [hstep] at h; cases h
      | some s1 =>
        rw [hstep] at h
        obtain ⟨L', hle, hWF'⟩ := ih (genStep_WF hWF hstep) h
        exact ⟨L', Nat.le_trans (Nat.le_succ L) hle, hWF'⟩

theorem genLoop_stop {self : Sequence} {T fuel : ℕ} {s : GenState}
    (hstop : self.stopCond T s = true) :
    self.genLoop T fuel s = some s := by
  cases fuel <;> simp [Sequence.genLoop, hstop]

theorem genLoop_finished_row {self : Sequence} {T fuel : ℕ}
    {s s' : GenState} {B L : ℕ} {i : ℕ} {r : List Int}
    (hWF : WF B L s) (h : self.genLoop T fuel s = some s')
    (hfin : s.is_finished[i]? = some true)
    (hr : s.token_ids[i]? = some r) :
    s'.is_finished[i]? = some true ∧
    ∃ suf, s'.token_ids[i]? = some (r ++ suf) ∧
      ∀ x ∈ suf, x = self.pad_token_id := by
  induction fuel generalizing s L r with
  | zero =>
    simp only [Sequence.genLoop] at h
    split at h
    · injection h with h
      subst h
      exact ⟨hfin, [], by simpa using hr, by simp⟩
    · cases h
  | succ fuel ih =>
    simp only [Sequence.genLoop] at h
    split at h
    · injection h with h
      subst h
      exact ⟨hfin, [], by simpa using hr, by simp⟩
    · cases hstep : self.genStep T s with
      | none => rw [hstep] at h; cases h
      | some s1 =>
        rw [hstep] at h
        have hlen : s.token_ids.length = s.is_finished.length := by
          rw [hWF.tok_len, hWF.fin_len]
        obtain ⟨hfin1, htok1⟩ := genStep_finished_row hlen hstep hfin
        rw [hr, Option.map_some'] at htok1
        obtain ⟨hfin', suf, hsuf, hpad⟩ :=
          ih (genStep_WF hWF hstep) h hfin1 htok1
        refine ⟨hfin', self.pad_token_id :: suf, ?_, ?_⟩
        · rw [hsuf, List.append_assoc]
          rfl
        · intro x hx
          rcases List.mem_cons.mp hx with hx | hx
          · exact hx
          · exact hpad x hx

theorem genLoop_row_append {self : Sequence} {T fuel : ℕ}
    {s s' : GenState} {B L : ℕ} {i : ℕ} {r : List Int}
    (hWF : WF B L s) (h : self.genLoop T fuel s = some s')
    (hr : s.token_ids[i]? = some r) :
    ∃ suf, s'.token_ids[i]? = some (r ++ suf) := by
  induction fuel generalizing s L r with
  | zero =>
    simp only [Sequence.genLoop] at h
    split at h
    · injection h with h
      subst h
      exact ⟨[], by simpa using hr⟩
    · cases h
  | succ fuel ih =>
    simp only [Sequence.genLoop] at h
    split at h
    · injection h with h
      subst h
      exact ⟨[], by simpa using hr⟩
    · cases hstep : self.genStep T s with
      | none => rw [hstep] at h; cases h
      | some s1 =>
        rw [hstep] at h
        have hlen : s.token_ids.length = s.is_finished.length := by
          rw [hWF.tok_len, hWF.fin_len]
        obtain ⟨v, hv⟩ := genStep_row_append hlen hstep hr
        obtain ⟨suf, hsuf⟩ := ih (genStep_WF hWF hstep) h hv
        exact ⟨v :: suf, by rw [hsuf, List.append_assoc]; rfl⟩

theorem genLoop_bound {self : Sequence} {T fuel m : ℕ} {s s' : GenState}
    {B L : ℕ} (hm : self.max_tokens = some m) (hWF : WF B L s)
    (hL : L ≤ T + m) (h : self.genLoop T fuel s = some s') :
    ∃ L', WF B L' s' ∧ L' ≤ T + m := by
  induction fuel generalizing s L with
  | zero =>
    simp only [Sequence.genLoop] at h
    split at h
    · injection h with h
      subst h
      exact ⟨L, hWF, hL⟩
    · cases h
  | succ fuel ih =>
    simp only [Sequence.genLoop] at h
    split at h
    · injection h with h
      subst h
      exact ⟨L, hWF, hL⟩
    · rename_i hstop
      cases hstep : self.genStep T s with
      | none => rw [hstep] at h; cases h
      | some s1 =>
        rw [hstep] at h
        have hfin_ne : s.is_finished ≠ [] := by
          intro hnil
          apply hstop
          unfold Sequence.stopCond
          rw [hnil]
          simp
        have htok_ne : s.token_ids ≠ [] := by
          intro hnil
          apply hfin_ne
          apply List.eq_nil_of_length_eq_zero
          rw [hWF.fin_len, ← hWF.tok_len, hnil]
          rfl
        have hhead : (s.token_ids.headD []).length = L := by
          apply hWF.tok_rect
          obtain ⟨hd, tl, heq⟩ := List.exists_cons_of_ne_nil htok_ne
          rw [heq]
          simp
        have hne : L - T ≠ m := by
          intro heq
          apply hstop
          unfold Sequence.stopCond
          rw [hm, hhead, heq]
          simp
        have hL1 : L + 1 ≤ T + m := by omega
        exact ih (genStep_WF hWF hstep) hL1 h

/-! ### Active-slice lemmas -/

theorem not_mem_activeIndices {s : GenState} {i : ℕ}
    (hfin : s.is_finished[i]? = some true) : i ∉ activeIndices s := by
  intro hmem
  unfold activeIndices at hmem
  rw [List.mem_filter, List.mem_range] at hmem
  obtain ⟨hi, hp⟩ := hmem
  rw [List.getD_eq_getElem?_getD, hfin] at hp
  simp at hp

theorem maskFilter_map_not_eq_filter_range {α : Type} (d : α) :
    ∀ (fin : List Bool) (rows : List α), fin.length = rows.length →
      maskFilter (fin.map (fun b => !b)) rows =
        ((List.range fin.length).filter
          (fun j => fin.getD j true = false)).map (fun j => rows.getD j d)
  | [], rows, h => by simp [maskFilter]
  | b :: fs, [], h => by simp at h
  | b :: fs, r :: rs, h => by
    have h' : fs.length = rs.length := by simpa using h
    have hrec := maskFilter_map_not_eq_filter_range d fs rs h'
    cases b <;>
      simp [maskFilter, List.range_succ_eq_map, List.filter_cons,
        List.filter_map, List.map_map, Function.comp_def,
        List.getD_cons_succ, List.getD_cons_zero, hrec]

theorem maskFilter_isNotFinished_eq_activeIndices (s : GenState) :
    s.is_finished.length = s.token_ids.length →
    maskFilter s.isNotFinished s.token_ids =
      (activeIndices s).map (fun j => s.token_ids.getD j []) := by
  intro h
  unfold GenState.isNotFinished activeIndices
  exact maskFilter_map_not_eq_filter_range [] s.is_finished s.token_ids h

theorem newTokenIds_length {self : Sequence} {B L : ℕ} {s : GenState}
    (o : StepOut) (hWF : WF B L s) : (newTokenIds self s o).length = B := by
  unfold newTokenIds
  rw [List.length_zipWith, stepCol_length, hWF.tok_len, hWF.fin_len,
    Nat.min_self]

theorem localFinished_length {self : Sequence} {T B L : ℕ} {s : GenState}
    (o : StepOut) (hWF : WF B L s)
    (hhook : ∀ m : Mat, (self.is_finished m).length = m.length) :
    (localFinished self T s o).length = s.is_finished.count false := by
  unfold localFinished
  rw [hhook, List.length_map,
    maskFilter_length _ _ (by
      rw [isNotFinished_length, hWF.fin_len, newTokenIds_length o hWF]),
    isNotFinished_eq, count_true_map_not]

theorem activeSlice_length {B L : ℕ} {s : GenState} (hWF : WF B L s) :
    (maskFilter s.isNotFinished s.token_ids).length =
      s.is_finished.count false := by
  rw [maskFilter_length _ _ (by
      rw [isNotFinished_length, hWF.fin_len, hWF.tok_len]),
    isNotFinished_eq, count_true_map_not]

/-- C5: once a row's `is_finished` flag is true it never becomes false
again; the row is not part of the active slice the model is called on (it
is outside `activeIndices`, the index set the boolean mask
`~is_finished` selects, both now and at every later point); the row's
token content up to the column at which it finished is unchanged by every
later iteration (the final row extends the current row); and every column
appended to the row after it finished holds the padding token id. -/
theorem claim_C5_finished_rows_frozen {self : Sequence} {T fuel B L i : ℕ}
    {s s' : GenState} {r : List Int}
    (hWF : WF B L s) (hfin : s.is_finished[i]? = some true)
    (hr : s.token_ids[i]? = some r)
    (hloop : self.genLoop T fuel s = some s') :
    s'.is_finished[i]? = some true ∧
    i ∉ activeIndices s ∧
    i ∉ activeIndices s' ∧
    (∃ suf, s'.token_ids[i]? = some (r ++ suf) ∧
      ∀ x ∈ suf, x = self.pad_token_id) := by
  obtain ⟨hfin', hsuf⟩ := genLoop_finished_row hWF hloop hfin hr
  exact ⟨hfin', not_mem_activeIndices hfin, not_mem_activeIndices hfin', hsuf⟩

/-- C5 witness: from the concrete mid-loop state with row 0 finished, one
iteration of `toySeq` leaves row 0 finished, outside the active index set,
with its old content intact and a padding column appended. -/
theorem claim_C5_finished_rows_frozen_witness :
    toyState.is_finished[0]? = some true ∧
    ((toySeq.genLoop 1 1 toyState).map (fun s1 => s1.is_finished[0]?) =
      some (some true)) ∧
    (∃ s' : GenState, toySeq.genLoop 1 1 toyState = some s' ∧
      (s'.is_finished[0]? = some true ∧
       0 ∉ activeIndices toyState ∧
       0 ∉ activeIndices s' ∧
       (∃ suf, s'.token_ids[0]? = some ([10] ++ suf) ∧
         ∀ x ∈ suf, x = toySeq.pad_token_id))) := by
  have hloop : toySeq.genLoop 1 1 toyState = some
      ⟨[[10, 99], [20, 1]], [[1, 1], [1, 1]], [true, true], none,
        ⟨fun _ => 1/2, 1⟩⟩ := by
    norm_num [Sequence.genLoop, Sequence.genStep, Sequence.stopCond,
      Sequence.step, toySeq, toyState, toyModel, toyTokenizer, toyRng,
      vectorized_random_choice, cumsum, cumsumFrom, List.countP_cons,
      List.range_succ, maskFilter, scatter, maskAssign,
      Sequence.expand_attention_mask, Sequence.pad_token_id]
  have hWF : WF 2 1 toyState := ⟨rfl, rfl, rfl, by decide, by decide⟩
  refine ⟨rfl, by rw [hloop]; rfl, ⟨_, hloop, ?_⟩⟩
  exact claim_C5_finished_rows_frozen hWF rfl rfl hloop

/-- C8: the token matrix and the attention mask always share the same row
count `B` and the same column count: one loop iteration turns a
well-formed `(B, L)` state into a well-formed `(B, L+1)` state and appends
exactly one column of 1s to the attention mask for all rows (finished
rows included), and any number of loop iterations preserves
well-formedness. -/
theorem claim_C8_mask_shape {self : Sequence} {T B L : ℕ} {s : GenState}
    (hWF : WF B L s) :
    (∀ s', self.genStep T s = some s' →
      s'.attention_mask = s.attention_mask.map (fun r => r ++ [1]) ∧
      WF B (L + 1) s') ∧
    (∀ fuel s', self.genLoop T fuel s = some s' → ∃ L', WF B L' s') := by
  constructor
  · intro s' hstep
    obtain ⟨o, _, _, hmask, _, _, _⟩ := Sequence.genStep_some hstep
    exact ⟨hmask, genStep_WF hWF hstep⟩
  · intro fuel s' hloop
    obtain ⟨L', _, hWF'⟩ := genLoop_WF hWF hloop
    exact ⟨L', hWF'⟩

/-- C8 witness: the shape invariant instantiated at the concrete mid-loop
state (2 rows, 1 column). -/
theorem claim_C8_mask_shape_witness :
    (∀ s', toySeq.genStep 1 toyState = some s' →
      s'.attention_mask = toyState.attention_mask.map (fun r => r ++ [1]) ∧
      WF 2 (1 + 1) s') ∧
    (∀ fuel s', toySeq.genLoop 1 fuel toyState = some s' →
      ∃ L', WF 2 L' s') :=
  claim_C8_mask_shape ⟨rfl, rfl, rfl, by decide, by decide⟩

/-- C4: under the model contract (the forward pass returns a truthy
incremental state with one row per input row in every tensor) and the
hook contract (`is_finished` returns one flag per input row), after any
loop iteration the pruned incremental state stored for the next forward
call exists and every one of its tensors has exactly as many rows as
there are rows with `is_finished = false` after that iteration. -/
theorem claim_C4_cache_rows {self : Sequence} {T B L : ℕ} {s s' : GenState}
    (hWF : WF B L s)
    (hmodel : ∀ tok mask past,
      (self.model.forward tok mask past).2 ≠ [] ∧
      ∀ v ∈ (self.model.forward tok mask past).2, ∀ t ∈ v,
        t.length = tok.length)
    (hhook : ∀ m : Mat, (self.is_finished m).length = m.length)
    (hstep : self.genStep T s = some s') :
    ∃ kv, s'.unfinished_past_key_values = some kv ∧
      ∀ v ∈ kv, ∀ t ∈ v, t.length = s'.is_finished.count false := by
  obtain ⟨o, ho, htok, hmask, hfin, hrng, hupkv⟩ := Sequence.genStep_some hstep
  obtain ⟨hguard, hoeq⟩ := Sequence.step_some ho
  have hA := hmodel (maskFilter s.isNotFinished s.token_ids)
    (maskFilter s.isNotFinished s.attention_mask) s.unfinished_past_key_values
  have hkv_ne : o.past_key_values ≠ [] := by rw [hoeq]; exact hA.1
  have hkv_rows : ∀ v ∈ o.past_key_values, ∀ t ∈ v,
      t.length = (maskFilter s.isNotFinished s.token_ids).length := by
    rw [hoeq]
    exact hA.2
  have hcond : ¬ (o.past_key_values.isEmpty = true) := by
    obtain ⟨v0, kv0, hkveq⟩ := List.exists_cons_of_ne_nil hkv_ne
    rw [hkveq]
    simp
  have hlocal : (localFinished self T s o).length =
      s.is_finished.count false := localFinished_length o hWF hhook
  rw [hupkv, if_neg hcond]
  refine ⟨_, rfl, ?_⟩
  intro v hv t ht
  unfold pruneKV at hv
  obtain ⟨v1, hv1, rfl⟩ := List.mem_map.mp hv
  obtain ⟨t1, ht1, rfl⟩ := List.mem_map.mp ht
  have ht1len : t1.length = (maskFilter s.isNotFinished s.token_ids).length :=
    hkv_rows v1 hv1 t1 ht1
  rw [maskFilter_length _ _ (by
      rw [List.length_map, hlocal, ht1len, activeSlice_length hWF]),
    count_true_map_not, hfin, maskAssign_count_false _ _ (by
      rw [hlocal])]

/-- C4 witness: one iteration of the state-returning toy model from a
2-row state with no finished rows: the stored pruned state exists and its
single tensor has 2 rows, the number of unfinished rows. -/
theorem claim_C4_cache_rows_witness :
    ∃ s', toySeqKV.genStep 1
        ⟨[[10], [20]], [[1], [1]], [false, false], none, toyRng⟩ = some s' ∧
      ∃ kv, s'.unfinished_past_key_values = some kv ∧
        ∀ v ∈ kv, ∀ t ∈ v, t.length = s'.is_finished.count false := by
  have hstep : toySeqKV.genStep 1
      ⟨[[10], [20]], [[1], [1]], [false, false], none, toyRng⟩ = some
      ⟨[[10, 0], [20, 1]], [[1, 1], [1, 1]], [false, false],
        some [[[[0], [0]]]], ⟨fun _ => 1/2, 2⟩⟩ := by
    norm_num [Sequence.genStep, Sequence.step, toySeqKV, toyModelKV,
      toyModel, toyTokenizer, toyRng, vectorized_random_choice, cumsum,
      cumsumFrom, List.countP_cons, List.range_succ, maskFilter, scatter,
      maskAssign, pruneKV, Sequence.expand_attention_mask,
      Sequence.pad_token_id, List.replicate_succ]
  refine ⟨_, hstep, ?_⟩
  exact @claim_C4_cache_rows toySeqKV 1 2 1
    ⟨[[10], [20]], [[1], [1]], [false, false], none, toyRng⟩
    ⟨[[10, 0], [20, 1]], [[1, 1], [1, 1]], [false, false],
      some [[[[0], [0]]]], ⟨fun _ => 1/2, 2⟩⟩
    ⟨rfl, rfl, rfl, by decide, by decide⟩
    (by
      intro tok mask past
      refine ⟨by simp [toySeqKV, toyModelKV], ?_⟩
      intro v hv t ht
      simp only [toySeqKV, toyModelKV] at hv
      rw [List.mem_singleton] at hv
      subst hv
      rw [List.mem_singleton] at ht
      subst ht
      simp)
    (by intro m; simp [toySeqKV])
    hstep

/-- C10: the stored incremental state is replaced only when the forward
pass returns a truthy (non-empty) state. If the model returns an empty
state, the previously stored (stale) pruned state is kept unchanged and
will be handed to the next forward call; if it returns a non-empty state,
the stored state becomes that state pruned by the just-finished mask. -/
theorem claim_C10_stale_cache {self : Sequence} {T : ℕ} {s s' : GenState}
    {probs : QMat} {cache : KVCache}
    (hfwd : self.model.forward (maskFilter s.isNotFinished s.token_ids)
        (maskFilter s.isNotFinished s.attention_mask)
        s.unfinished_past_key_values = (probs, cache))
    (hstep : self.genStep T s = some s') :
    (cache = [] → s'.unfinished_past_key_values =
      s.unfinished_past_key_values) ∧
    (cache ≠ [] → ∃ keep, s'.unfinished_past_key_values =
      some (pruneKV keep cache)) := by
  obtain ⟨o, ho, _, _, _, _, hupkv⟩ := Sequence.genStep_some hstep
  obtain ⟨_, hoeq⟩ := Sequence.step_some ho
  have hcache : o.past_key_values = cache := by
    rw [hoeq]
    simp [hfwd]
  constructor
  · intro hnil
    rw [hupkv, if_pos (by rw [hcache, hnil]; rfl)]
  · intro hne
    refine ⟨(localFinished self T s o).map (fun b => !b), ?_⟩
    have hcond : ¬ (o.past_key_values.isEmpty = true) := by
      rw [hcache]
      obtain ⟨v0, kv0, hkveq⟩ := List.exists_cons_of_ne_nil hne
      rw [hkveq]
      simp
    rw [hupkv, if_neg hcond, hcache]

/-- C10 witness: `toyModel` returns an empty (falsy) incremental state, so
after one iteration from the concrete mid-loop state the stored state is
kept unchanged (`none` here). -/
theorem claim_C10_stale_cache_witness :
    ∃ s', toySeq.genStep 1 toyState = some s' ∧
      s'.unfinished_past_key_values =
        toyState.unfinished_past_key_values := by
  have hstep : toySeq.genStep 1 toyState = some
      ⟨[[10, 99], [20, 1]], [[1, 1], [1, 1]], [true, true], none,
        ⟨fun _ => 1/2, 1⟩⟩ := by
    norm_num [Sequence.genStep, Sequence.step, toySeq, toyModel,
      toyTokenizer, toyRng, toyState, vectorized_random_choice, cumsum,
      cumsumFrom, List.countP_cons, List.range_succ, maskFilter, scatter,
      maskAssign, Sequence.expand_attention_mask, Sequence.pad_token_id]
  refine ⟨_, hstep, ?_⟩
  exact (@claim_C10_stale_cache toySeq 1 toyState
    ⟨[[10, 99], [20, 1]], [[1, 1], [1, 1]], [true, true], none,
      ⟨fun _ => 1/2, 1⟩⟩ [[0, 1]] []
    (by norm_num [toySeq, toyModel, toyState, maskFilter]) hstep).1 rfl

/-! ### Initial-state lemmas and the token budget -/

theorem map_drop_rect (rows : Mat) (T : ℕ)
    (h : ∀ r ∈ rows, r.length = T) :
    rows.map (List.drop T) = List.replicate rows.length [] := by
  induction rows with
  | nil => rfl
  | cons r rs ih =>
    rw [List.map_cons, List.length_cons, List.replicate_succ,
      List.drop_eq_nil_of_le (by rw [h r (List.mem_cons_self r rs)]),
      ih (fun x hx => h x (List.mem_cons_of_mem r hx))]

theorem initState_WF {self : Sequence} {prompt : List String}
    {samples : ℕ} {rng : RNG} {tokRows maskRows : Mat}
    (henc : self.model.tokenizer.encode prompt = (tokRows, maskRows))
    (hT : ∀ r ∈ tokRows, r.length = self.numPromptTokens prompt)
    (hM : ∀ r ∈ maskRows, r.length = self.numPromptTokens prompt)
    (hlen : maskRows.length = tokRows.length) :
    WF (samples * tokRows.length) (self.numPromptTokens prompt)
      (self.initState prompt samples rng) := by
  refine ⟨?_, ?_, ?_, ?_, ?_⟩ <;>
    simp only [Sequence.initState, henc]
  · exact flatten_replicate_length samples tokRows
  · rw [flatten_replicate_length, hlen]
  · rw [List.length_replicate, flatten_replicate_length]
  · intro r hr
    exact hT r (mem_flatten_replicate samples tokRows r hr)
  · intro r hr
    exact hM r (mem_flatten_replicate samples maskRows r hr)

theorem initState_token_getElem? {self : Sequence} {prompt : List String}
    {samples : ℕ} {rng : RNG} {tokRows maskRows : Mat} {q p : ℕ}
    (henc : self.model.tokenizer.encode prompt = (tokRows, maskRows))
    (hq : q < samples) (hp : p < tokRows.length) :
    (self.initState prompt samples rng).token_ids[q * tokRows.length + p]? =
      tokRows[p]? := by
  simp only [Sequence.initState, henc]
  exact flatten_replicate_getElem? samples tokRows q p hq hp

theorem stopCond_initState_max0 {self : Sequence} {prompt : List String}
    {samples : ℕ} {rng : RNG} {tokRows maskRows : Mat}
    (hm : self.max_tokens = some 0)
    (henc : self.model.tokenizer.encode prompt = (tokRows, maskRows))
    (hT : ∀ r ∈ tokRows, r.length = self.numPromptTokens prompt) :
    self.stopCond (self.numPromptTokens prompt)
      (self.initState prompt samples rng) = true := by
  unfold Sequence.stopCond
  rw [hm]
  by_cases hnil : (self.initState prompt samples rng).token_ids = []
  · have : (self.initState prompt samples rng).is_finished = [] := by
      simp only [Sequence.initState] at hnil ⊢
      rw [hnil]
      rfl
    rw [this]
    simp
  · obtain ⟨hd, tl, heq⟩ := List.exists_cons_of_ne_nil hnil
    have hmem : hd ∈ (self.initState prompt samples rng).token_ids := by
      rw [heq]
      simp
    have hdlen : hd.length = self.numPromptTokens prompt := by
      apply hT
      simp only [Sequence.initState, henc] at hmem
      exact mem_flatten_replicate samples tokRows hd hmem
    rw [heq]
    simp [hdlen]

/-- C6: with `max_tokens = m`, the termination check runs before any token
is generated, so whenever the loop exits normally the final state is
well-formed with at most `T + m` columns: starting from the prompt-only
initial state (`T` columns) at most `m` forward-pass iterations ran (each
iteration appends exactly one column to every row, so rows gain at most
`m` generated columns). With `m = 0` the loop exits at its first check —
the state is exactly the initial one, zero iterations ran — and the
invocation returns the decoding of the prompt-only (empty) suffixes. -/
theorem claim_C6_token_budget {self : Sequence} {prompt : List String}
    {samples fuel m : ℕ} {rng : RNG} {s' : GenState} {tokRows maskRows : Mat}
    (hm : self.max_tokens = some m)
    (henc : self.model.tokenizer.encode prompt = (tokRows, maskRows))
    (hT : ∀ r ∈ tokRows, r.length = self.numPromptTokens prompt)
    (hM : ∀ r ∈ maskRows, r.length = self.numPromptTokens prompt)
    (hlen : maskRows.length = tokRows.length)
    (hloop : self.genLoop (self.numPromptTokens prompt) fuel
        (self.initState prompt samples rng) = some s') :
    (∃ L', WF (samples * tokRows.length) L' s' ∧
      L' ≤ self.numPromptTokens prompt + m) ∧
    (m = 0 → s' = self.initState prompt samples rng ∧
      self.call prompt samples rng fuel = some (finalizeResult
        (self.postprocess_completions (self.model.tokenizer.decode
          (List.replicate (samples * tokRows.length) []))))) := by
  have hWF := @initState_WF self prompt samples rng tokRows maskRows henc hT hM hlen
  refine ⟨genLoop_bound hm hWF (Nat.le_add_right _ _) hloop, ?_⟩
  intro hm0
  subst hm0
  have hstop := @stopCond_initState_max0 self prompt samples rng tokRows
    maskRows hm henc hT
  have hloop0 : self.genLoop (self.numPromptTokens prompt) fuel
      (self.initState prompt samples rng) =
      some (self.initState prompt samples rng) := genLoop_stop hstop
  have hs' : s' = self.initState prompt samples rng := by
    rw [hloop0] at hloop
    injection hloop with hloop
    exact hloop.symm
  refine ⟨hs', ?_⟩
  have hdrop : (self.initState prompt samples rng).token_ids.map
      (List.drop (self.numPromptTokens prompt)) =
      List.replicate (samples * tokRows.length) [] := by
    rw [map_drop_rect _ _ hWF.tok_rect, hWF.tok_len]
  simp only [Sequence.call]
  rw [hloop0]
  dsimp only
  rw [hdrop]

/-- C6 witness: `toySeq0` has `max_tokens = 0`; with two prompts and two
samples the loop exits at its first termination check, the state is the
initial one, and the call returns the decoding of the four prompt-only
(empty) suffixes. -/
theorem claim_C6_token_budget_witness :
    (∃ L', WF (2 * List.length ([[10], [20]] : Mat)) L'
        (toySeq0.initState ["p0", "p1"] 2 toyRng) ∧
      L' ≤ toySeq0.numPromptTokens ["p0", "p1"] + 0) ∧
    (0 = 0 → toySeq0.initState ["p0", "p1"] 2 toyRng =
        toySeq0.initState ["p0", "p1"] 2 toyRng ∧
      toySeq0.call ["p0", "p1"] 2 toyRng 3 = some (finalizeResult
        (toySeq0.postprocess_completions (toySeq0.model.tokenizer.decode
          (List.replicate (2 * List.length ([[10], [20]] : Mat)) []))))) := by
  have henc : toySeq0.model.tokenizer.encode ["p0", "p1"] =
      ([[10], [20]], [[1], [1]]) := by
    norm_num [toySeq0, toyModel, toyTokenizer, List.replicate_succ,
      show ¬ (("p1" : String) = "p0") by decide]
  have hnum : toySeq0.numPromptTokens ["p0", "p1"] = 1 := by
    rw [Sequence.numPromptTokens, henc]
    rfl
  have hT : ∀ r ∈ ([[10], [20]] : Mat),
      r.length = toySeq0.numPromptTokens ["p0", "p1"] := by
    rw [hnum]
    decide
  have hM : ∀ r ∈ ([[1], [1]] : Mat),
      r.length = toySeq0.numPromptTokens ["p0", "p1"] := by
    rw [hnum]
    decide
  have hloop : toySeq0.genLoop (toySeq0.numPromptTokens ["p0", "p1"]) 3
      (toySeq0.initState ["p0", "p1"] 2 toyRng) =
      some (toySeq0.initState ["p0", "p1"] 2 toyRng) :=
    genLoop_stop (stopCond_initState_max0 rfl henc hT)
  exact claim_C6_token_budget rfl henc hT hM rfl hloop

/-- C7: all randomness flows through the caller-supplied generator: two
invocations of the public entry point with the same prompt, sample count
and model, and generator handles with identical draw streams and
positions, return identical results. -/
theorem claim_C7_determinism (self : Sequence) (prompt : List String)
    (samples fuel : ℕ) (r1 r2 : RNG)
    (hstream : ∀ n, r1.stream n = r2.stream n) (hpos : r1.pos = r2.pos) :
    self.call prompt samples r1 fuel = self.call prompt samples r2 fuel := by
  have hr : r1 = r2 := by
    cases r1 with
    | mk s1 p1 =>
      cases r2 with
      | mk s2 p2 =>
        have hs : s1 = s2 := funext hstream
        subst hs
        exact congrArg (RNG.mk s1) hpos
  rw [hr]

/-- C7 witness: two syntactically different but extensionally equal
constant streams (1/2 and 2/4) yield the same completions. -/
theorem claim_C7_determinism_witness :
    toySeq.call ["p0"] 1 ⟨fun _ => 1/2, 0⟩ 2 =
      toySeq.call ["p0"] 1 ⟨fun _ => 2/4, 0⟩ 2 :=
  claim_C7_determinism toySeq ["p0"] 1 2 ⟨fun _ => 1/2, 0⟩
    ⟨fun _ => 2/4, 0⟩ (fun n => by norm_num) rfl

/-- C1 counterexample: prompt "p0" alone completes to "A" and prompt "p1"
alone to "B" (the toy model is deterministic per prompt), yet with the two
prompts and `samples = 2` the returned sequence is
`["A", "B", "A", "B"]`: position 1 holds prompt 1's completion, so the
four completions are NOT ordered prompt-major (which would put prompt 0's
two samples — both "A" — at positions 0 and 1). The row-major flattening
of the broadcast `(samples, num_prompts)` batch is sample-major. -/
theorem claim_C1_counterexample :
    toySeq.call ["p0"] 1 toyRng 2 = some (Sum.inl "A") ∧
    toySeq.call ["p1"] 1 toyRng 2 = some (Sum.inl "B") ∧
    toySeq.call ["p0", "p1"] 2 toyRng 2 =
      some (Sum.inr ["A", "B", "A", "B"]) ∧
    "A" ≠ "B" := by
  refine ⟨?_, ?_, ?_, by decide⟩ <;>
    norm_num [Sequence.call, Sequence.genLoop, Sequence.genStep,
      Sequence.stopCond, Sequence.step, Sequence.initState,
      Sequence.numPromptTokens, toySeq, toyModel, toyTokenizer, toyRng,
      vectorized_random_choice, cumsum, cumsumFrom, List.countP_cons,
      List.range_succ, maskFilter, scatter, maskAssign,
      Sequence.expand_attention_mask, Sequence.pad_token_id, finalizeResult,
      toyD, Function.comp, List.replicate_succ, List.flatten_cons,
      List.flatten_nil, List.zipWith_cons_cons,
      show ¬ (("p1" : String) = "p0") by decide]

/-- C1 (amended): with two prompts and `samples = 2` (generally
`samples * num_prompts ≥ 2` completions) the public entry point returns
the ordered sequence of the decoded generated suffixes of the final
batch rows; there are `samples * num_prompts` of them and they are
ordered sample-major then prompt-minor: the row (and hence the
completion) at index `q * num_prompts + p` extends prompt `p` — all
prompts' sample 0 completions precede all prompts' sample 1 completions,
matching the row-major flattening of the `(samples,) + (num_prompts,)`
broadcast batch dimensions. -/
theorem claim_C1_amended {self : Sequence} {prompt : List String}
    {samples fuel : ℕ} {rng : RNG} {s' : GenState}
    {tokRows maskRows : Mat} {d : List Int → String}
    (henc : self.model.tokenizer.encode prompt = (tokRows, maskRows))
    (hT : ∀ r ∈ tokRows, r.length = self.numPromptTokens prompt)
    (hM : ∀ r ∈ maskRows, r.length = self.numPromptTokens prompt)
    (hlen : maskRows.length = tokRows.length)
    (hdec : ∀ m : Mat, self.model.tokenizer.decode m = m.map d)
    (hpost : ∀ l, self.postprocess_completions l = l)
    (h2 : 2 ≤ samples * tokRows.length)
    (hloop : self.genLoop (self.numPromptTokens prompt) fuel
        (self.initState prompt samples rng) = some s') :
    self.call prompt samples rng fuel = some (Sum.inr (s'.token_ids.map
      (fun r => d (r.drop (self.numPromptTokens prompt))))) ∧
    s'.token_ids.length = samples * tokRows.length ∧
    (∀ q < samples, ∀ p < tokRows.length,
      ∃ suf, s'.token_ids[q * tokRows.length + p]? =
        some (tokRows.getD p [] ++ suf)) := by
  have hWF := @initState_WF self prompt samples rng tokRows maskRows henc hT hM hlen
  obtain ⟨L', hle, hWF'⟩ := genLoop_WF hWF hloop
  have htoklen : s'.token_ids.length = samples * tokRows.length :=
    hWF'.tok_len
  refine ⟨?_, htoklen, ?_⟩
  · simp only [Sequence.call]
    rw [hloop]
    dsimp only
    rw [hdec, hpost]
    unfold finalizeResult
    rw [List.map_map,
      if_neg (by
        rw [List.length_map, htoklen]
        omega)]
    rfl
  · intro q hq p hp
    have hinit : (self.initState prompt samples rng).token_ids[q *
        tokRows.length + p]? = some (tokRows.getD p []) := by
      rw [initState_token_getElem? henc hq hp,
        List.getElem?_eq_getElem hp, List.getD_eq_getElem tokRows [] hp]
    exact genLoop_row_append hWF hloop hinit

/-- C1 witness (for the amended claim): the toy instance with two prompts
and two samples returns four completions in sample-major order; row
`q * 2 + p` of the final batch extends prompt `p`. -/
theorem claim_C1_amended_witness :
    toySeq.call ["p0", "p1"] 2 toyRng 2 = some (Sum.inr
      (([[10, 0], [20, 1], [10, 0], [20, 1]] : Mat).map
        (fun r => toyD (r.drop (toySeq.numPromptTokens ["p0", "p1"]))))) ∧
    ([[10, 0], [20, 1], [10, 0], [20, 1]] : Mat).length =
      2 * List.length ([[10], [20]] : Mat) ∧
    (∀ q < 2, ∀ p < List.length ([[10], [20]] : Mat),
      ∃ suf, ([[10, 0], [20, 1], [10, 0], [20, 1]] : Mat)[q *
          List.length ([[10], [20]] : Mat) + p]? =
        some (([[10], [20]] : Mat).getD p [] ++ suf)) := by
  have henc : toySeq.model.tokenizer.encode ["p0", "p1"] =
      ([[10], [20]], [[1], [1]]) := by
    norm_num [toySeq, toyModel, toyTokenizer, List.replicate_succ,
      show ¬ (("p1" : String) = "p0") by decide]
  have hnum : toySeq.numPromptTokens ["p0", "p1"] = 1 := by
    rw [Sequence.numPromptTokens, henc]
    rfl
  have hT : ∀ r ∈ ([[10], [20]] : Mat),
      r.length = toySeq.numPromptTokens ["p0", "p1"] := by
    rw [hnum]
    decide
  have hM : ∀ r ∈ ([[1], [1]] : Mat),
      r.length = toySeq.numPromptTokens ["p0", "p1"] := by
    rw [hnum]
    decide
  have hloop : toySeq.genLoop (toySeq.numPromptTokens ["p0", "p1"]) 2
      (toySeq.initState ["p0", "p1"] 2 toyRng) = some
      ⟨[[10, 0], [20, 1], [10, 0], [20, 1]],
       [[1, 1], [1, 1], [1, 1], [1, 1]],
       [true, true, true, true], none, ⟨fun _ => 1/2, 4⟩⟩ := by
    rw [hnum]
    norm_num [Sequence.genLoop, Sequence.genStep, Sequence.stopCond,
      Sequence.step, Sequence.initState, toySeq, toyModel, toyTokenizer,
      toyRng, vectorized_random_choice, cumsum, cumsumFrom,
      List.countP_cons, List.range_succ, maskFilter, scatter, maskAssign,
      Sequence.expand_attention_mask, Sequence.pad_token_id,
      List.replicate_succ, List.flatten_cons, List.flatten_nil,
      List.zipWith_cons_cons,
      show ¬ (("p1" : String) = "p0") by decide]
  exact claim_C1_amended henc hT hM rfl (fun m => rfl) (fun l => rfl)
    (by norm_num) hloop
